import Mathlib

/-!
Verification of the tugboat open-pull-request reporting core.

The definitions below are a shallow embedding of `tugboat/pulls.py` and
`tugboat/reports.py`.  Timestamps (`datetime.datetime` values) are modelled
as integers: the code only compares them and subtracts them, and any strict
monotone embedding of the time line preserves those operations.  The opaque
GitHub API collaborators (`github.Repository.Repository`,
`github.PullRequest.PullRequest`, `github.Github`) are modelled as records
that carry exactly the data the code reads from them.
-/

/-- The `user` object of a raw pull-request record: `user.login` and the
nullable `user.name` (`reports.py` line 425, 430). -/
structure GhUser where
  login : String
  name : Option String
  deriving DecidableEq

/-- A raw `github.PullRequest.PullRequest` record, carrying the attributes
the code reads: `number`, `created_at`, `updated_at`, `mergeable`,
`html_url`, `head.label`, `base.label`, `user`. -/
structure RawPull where
  number : Nat
  created_at : Int
  updated_at : Int
  mergeable : Bool
  html_url : String
  head_label : String
  base_label : String
  user : GhUser
  deriving DecidableEq

/-- A `github.Repository.Repository` handle: its `full_name` attribute and
the sequence of raw open pull requests its `get_pulls()` method yields. -/
structure Repo where
  full_name : String
  get_pulls : List RawPull
  deriving DecidableEq

/-- The wrapper class `tugboat.pulls.PullRequest`: the `_repo` and `_pr`
fields set by `__init__` together with the `_mergeable` cache slot
(`pulls.py` lines 195-198).  The `repo` and `pr` properties are the field
projections. -/
structure PullRequest where
  repo : Repo
  pr : RawPull
  mergeableCache : Option Bool
  deriving DecidableEq

/-- `PullRequest.__init__(repo, pr)` (`pulls.py` lines 184-198): stores the
repository and the raw record and initializes the `_mergeable` cache to the
unset sentinel (`None`). -/
def mkPullRequest (repo : Repo) (pr : RawPull) : PullRequest :=
  { repo := repo, pr := pr, mergeableCache := none }

/-- Delegated attribute `created_at` (`pulls.py` `__getattr__`, lines
200-210): forwarded to the underlying raw record. -/
def PullRequest.created_at (p : PullRequest) : Int :=
  p.pr.created_at

/-- Delegated attribute `updated_at` (forwarded by `__getattr__`). -/
def PullRequest.updated_at (p : PullRequest) : Int :=
  p.pr.updated_at

/-- Delegated attribute `number` (forwarded by `__getattr__`). -/
def PullRequest.number (p : PullRequest) : Nat :=
  p.pr.number

/-- The `mergeable` property getter (`pulls.py` lines 212-224), modelled
with explicit state passing.  Returns the value produced, the wrapper state
after the access, and whether the underlying raw record was consulted
(a fetch): on an unset cache it reads `self._pr.mergeable`, stores it in
the cache and returns it; on a set cache it returns the cached value with
no fetch. -/
def PullRequest.mergeableAccess (p : PullRequest) : Bool × PullRequest × Bool :=
  match p.mergeableCache with
  | none => (p.pr.mergeable, { p with mergeableCache := some p.pr.mergeable }, true)
  | some v => (v, p, false)

/-- The `mergeable` property deleter (`pulls.py` lines 226-234): resets the
cache slot to the unset sentinel. -/
def PullRequest.mergeableDel (p : PullRequest) : PullRequest :=
  { p with mergeableCache := none }

/-- The value the `mergeable` property returns in a given wrapper state:
the cached flag when set, the underlying raw value otherwise.  This is the
first component of `PullRequest.mergeableAccess` and is what the report
code observes when it tests `pull.mergeable`. -/
def PullRequest.mergeableVal (p : PullRequest) : Bool :=
  match p.mergeableCache with
  | some v => v
  | none => p.pr.mergeable

/-- `n` successive accesses of the `mergeable` property on a wrapper:
returns the list of values produced, the total number of fetches from the
raw record, and the final wrapper state. -/
def mergeableAccessN : Nat → PullRequest → List Bool × Nat × PullRequest
  | 0, p => ([], 0, p)
  | n + 1, p =>
    let r := p.mergeableAccess
    let rest := mergeableAccessN n r.2.1
    (r.1 :: rest.1, (if r.2.2 then 1 else 0) + rest.2.1, rest.2.2)

/-- `td_zero = datetime.timedelta(0)` (`reports.py` line 126). -/
def td_zero : Int := 0

/-- `format_age(now, time, fmt)` (`reports.py` lines 129-151): computes the
age `now - time`; when the age is less than or equal to the zero duration
it returns the empty string, otherwise the format template with the age
substituted for its `%s` placeholder (Python `fmt % age`). -/
def format_age (now time : Int) (fmt : String) : String :=
  let age := now - time
  if age ≤ td_zero then ""
  else String.intercalate (toString age) (fmt.splitOn "%s")

/-- One invocation of the `repo_callback` in `_from_repos` (`pulls.py`
lines 51-58): either the pre-fetch call `cb(idx, len(repos), repo)` or the
post-fetch call `cb(idx, len(repos), repo, repo_pulls)`. -/
inductive CbCall where
  | pre (idx : Nat) (total : Nat) (repo : Repo)
  | post (idx : Nat) (total : Nat) (repo : Repo) (pulls : List PullRequest)
  deriving DecidableEq

/-- The wrapped pull list built for one repository in `_from_repos`
(`pulls.py` line 54): `[cls(repo, pr) for pr in repo.get_pulls()]`. -/
def wrapPulls (repo : Repo) : List PullRequest :=
  repo.get_pulls.map (mkPullRequest repo)

/-- The loop body of `_from_repos` (`pulls.py` lines 49-60), carrying the
current index.  `cb` tells whether `repo_callback` is non-null; the second
component is the sequence of callback invocations made, in order. -/
def from_reposAux (total : Nat) (cb : Bool) :
    Nat → List Repo → List PullRequest × List CbCall
  | _, [] => ([], [])
  | idx, repo :: rest =>
    let repo_pulls := wrapPulls repo
    let r := from_reposAux total cb (idx + 1) rest
    (repo_pulls ++ r.1,
     (if cb then [CbCall.pre idx total repo, CbCall.post idx total repo repo_pulls]
      else []) ++ r.2)

/-- `PullRequest._from_repos(repos, repo_callback)` (`pulls.py` lines
47-62): walks the materialized repository list from index 0, wraps each
raw pulls of each repository, accumulates them in order, and invokes the callback
before and after each fetch when it is non-null.  Returns the accumulated
wrapped pulls and the callback-invocation trace. -/
def from_repos (repos : List Repo) (cb : Bool) : List PullRequest × List CbCall :=
  from_reposAux repos.length cb 0 repos

/-- `PullSummary` (`reports.py` lines 31-46): the four extremal references,
all initially unset (`None`). -/
structure PullSummary where
  oldest : Option PullRequest
  youngest : Option PullRequest
  least_recent : Option PullRequest
  most_recent : Option PullRequest
  deriving DecidableEq

/-- `PullSummary.__init__` (`reports.py` lines 38-46): every reference
starts out unset. -/
def PullSummary.init : PullSummary :=
  { oldest := none, youngest := none, least_recent := none, most_recent := none }

/-- One guarded minimum-tracking update of `PullSummary.add_pull`:
`if cur is None or cur.key > pull.key: cur = pull` for a key read off the
pull request. -/
def minStep (key : PullRequest → Int) (cur : Option PullRequest)
    (pull : PullRequest) : Option PullRequest :=
  match cur with
  | none => some pull
  | some o => if key o > key pull then some pull else some o

/-- One guarded maximum-tracking update of `PullSummary.add_pull`:
`if cur is None or cur.key < pull.key: cur = pull`. -/
def maxStep (key : PullRequest → Int) (cur : Option PullRequest)
    (pull : PullRequest) : Option PullRequest :=
  match cur with
  | none => some pull
  | some o => if key o < key pull then some pull else some o

/-- `PullSummary.add_pull(pull)` (`reports.py` lines 48-71): the four
guarded updates, strict on `created_at` for oldest/youngest and on
`updated_at` for least/most recently updated. -/
def PullSummary.add_pull (s : PullSummary) (pull : PullRequest) : PullSummary :=
  { oldest := minStep PullRequest.created_at s.oldest pull,
    youngest := maxStep PullRequest.created_at s.youngest pull,
    least_recent := minStep PullRequest.updated_at s.least_recent pull,
    most_recent := maxStep PullRequest.updated_at s.most_recent pull }

/-- `PullSummary.add_pulls(pulls)` (`reports.py` lines 73-86): adds each
pull request in sequence order and returns the original list as a
convenience value. -/
def PullSummary.add_pulls (s : PullSummary) (pulls : List PullRequest) :
    PullSummary × List PullRequest :=
  (pulls.foldl PullSummary.add_pull s, pulls)

/-- Running minimum of `key` over a pull list, seeded with `k`. -/
def foldMinKey (key : PullRequest → Int) (k : Int) (ps : List PullRequest) : Int :=
  ps.foldl (fun m q => min m (key q)) k

/-- Running maximum of `key` over a pull list, seeded with `k`. -/
def foldMaxKey (key : PullRequest → Int) (k : Int) (ps : List PullRequest) : Int :=
  ps.foldl (fun m q => max m (key q)) k

/-- `RepoSummary` (`reports.py` lines 89-105): the repository full name and
the two per-repository counters. -/
structure RepoSummary where
  name : String
  pulls : Nat
  mergeable : Nat
  deriving DecidableEq

/-- `RepoSummary.__init__(name)` (`reports.py` lines 96-105): zeroed
counters. -/
def RepoSummary.new (name : String) : RepoSummary :=
  { name := name, pulls := 0, mergeable := 0 }

/-- `RepoSummary.__iadd__(other)` (`reports.py` lines 107-123): counts the
pull request, and additionally counts it as mergeable when its `mergeable`
property is true. -/
def RepoSummary.iadd (s : RepoSummary) (other : PullRequest) : RepoSummary :=
  let s1 := { s with pulls := s.pulls + 1 }
  if other.mergeableVal then { s1 with mergeable := s1.mergeable + 1 } else s1

/-- The keys of the `sort_keys` mapping (`reports.py` lines 209-214). -/
def sort_keys : List String := ["created", "updated", "repo"]

/-- The "key of `x` is at most key of `y`" comparison induced by the key
functions of `sort_keys` (`reports.py` lines 209-214): `created` compares
`created_at`, `updated` compares `updated_at`, and `repo` compares the
tuple `(x.repo.full_name, x.number)` in Python tuple (lexicographic)
order. -/
def sortKeyLe (sort_by : String) (x y : PullRequest) : Bool :=
  if sort_by = "created" then decide (x.created_at ≤ y.created_at)
  else if sort_by = "updated" then decide (x.updated_at ≤ y.updated_at)
  else decide (x.repo.full_name < y.repo.full_name ∨
    (x.repo.full_name = y.repo.full_name ∧ x.number ≤ y.number))

/-- The sort phase of `report` (`reports.py` lines 385-387):
`if sort_by in sort_keys: pulls.sort(key=sort_keys[sort_by])`.  Python
`list.sort` is the stable sort by the total order of the key, which
`List.mergeSort` with the induced key comparison realizes. -/
def sortPhase (sort_by : String) (pulls : List PullRequest) : List PullRequest :=
  if sort_by ∈ sort_keys then pulls.mergeSort (sortKeyLe sort_by) else pulls

/-- The repository-breakdown accumulation step of `report` (`reports.py`
lines 436-438): `repos.setdefault(name, RepoSummary(name))` followed by
`repos[name] += pull`, on an insertion-ordered association list (Python
dict keys are distinct and keep insertion order; a missing key is appended
at the end). -/
def updateRepoSummaries : List RepoSummary → PullRequest → List RepoSummary
  | [], pull => [(RepoSummary.new pull.repo.full_name).iadd pull]
  | s :: rest, pull =>
    if s.name = pull.repo.full_name then s.iadd pull :: rest
    else s :: updateRepoSummaries rest pull

/-- The `repos` dictionary built while the per-pull blocks are emitted
(`reports.py` lines 418-438), as its value list in insertion order. -/
def repoSummaries (pulls : List PullRequest) : List RepoSummary :=
  pulls.foldl updateRepoSummaries []

/-- The row sequence of the repository breakdown (`reports.py` line 444):
`sorted(repos.values(), key=lambda x: x.name)`; Python `sorted` is the
stable sort by the key. -/
def repoBreakdown (pulls : List PullRequest) : List RepoSummary :=
  (repoSummaries pulls).mergeSort (fun a b => decide (a.name ≤ b.name))

/-- The proposer display name of the per-pull block (`reports.py` line
430): `pull.user.name or the literal unknown marker`; Python `or` falls back on a null or
empty display name. -/
def usernameOf (u : GhUser) : String :=
  match u.name with
  | some s => if s = "" then "<unknown>" else s
  | none => "<unknown>"

/-- One summary-reference line of the report header block (`reports.py`
lines 402-415).  An unset reference is rendered as the empty string here;
the code would raise on it, and it is unreachable whenever at least one
pull request was collected. -/
def refLine (label : String) (time : PullRequest → Int)
    (r : Option PullRequest) : String :=
  match r with
  | some p =>
    label ++ toString (time p) ++ ": " ++ p.repo.full_name ++ "#"
      ++ toString p.number
  | none => ""

/-- The per-pull block (`reports.py` lines 420-434), one output string per
pull request. -/
def pullBlock (start : Int) (pull : PullRequest) : String :=
  "\nPull request " ++ pull.repo.full_name ++ "#" ++ toString pull.number
    ++ ":\n"
    ++ "    URL: " ++ pull.pr.html_url ++ "\n"
    ++ "    Merge " ++ pull.pr.head_label ++ " -> " ++ pull.pr.base_label
    ++ "\n"
    ++ "    Proposed " ++ toString pull.created_at
    ++ format_age start pull.created_at " (age: %s)" ++ "\n"
    ++ "    Proposed by " ++ usernameOf pull.pr.user ++ " ("
    ++ pull.pr.user.login ++ ")\n"
    ++ "    Last updated: " ++ toString pull.updated_at
    ++ format_age start pull.updated_at " (%s ago)" ++ "\n"
    ++ "    Mergeable: " ++ (if pull.mergeableVal then "yes" else "no")

/-- One repository-breakdown row (`reports.py` lines 445-447). -/
def breakdownRow (s : RepoSummary) : String :=
  "    Open PRs for " ++ s.name ++ ": " ++ toString s.pulls ++ " ("
    ++ toString s.mergeable ++ " mergeable)"

/-- The emission phase of `report` (`reports.py` lines 393-452), modelled
as the list of strings printed to the output stream: the empty-list early
return, the header and summary block, the per-pull blocks in list order,
the repository breakdown, and the trailer. -/
def reportEmission (start endT : Int) (pr_summary : PullSummary)
    (pulls : List PullRequest) : List String :=
  if pulls.isEmpty then ["No open pull requests"]
  else
    ("Open PRs: " ++ toString pulls.length ++ " ("
        ++ toString (pulls.countP (fun p => p.mergeableVal)) ++ " mergeable)")
    :: refLine "    Oldest PR, from " PullRequest.created_at pr_summary.oldest
    :: refLine "    Youngest PR, from " PullRequest.created_at pr_summary.youngest
    :: refLine "    Least recently updated PR, at " PullRequest.updated_at
        pr_summary.least_recent
    :: refLine "    Most recently updated PR, at " PullRequest.updated_at
        pr_summary.most_recent
    :: (pulls.map (pullBlock start)
        ++ ("\nRepositories with open pull requests: "
              ++ toString (repoSummaries pulls).length
              ++ "\nBreakdown by repository:")
          :: (repoBreakdown pulls).map breakdownRow
        ++ ["\nReport generated in " ++ toString (endT - start) ++ " at "
              ++ toString start])

/-- The GitHub handle together with the repository-specification dispatch
of `report` (`reports.py` lines 156-160 and 380): `targets[target](gh,
name, repo_callback)` resolves a `(target, name)` pair to the repository
list the opaque API yields for it, after which each entry point hands that
list to `_from_repos` (`pulls.py` lines 90, 122, 154). -/
structure Gh where
  resolve : String → String → List Repo

/-- One iteration of the collection loop of `report` (`reports.py` lines
374-383): resolves the `(target, name)` specification through
`_from_repos`, feeds every resulting pull request through the summary
tracker (`add_pulls`), and appends them to the flat list in arrival
order. -/
def collectStep (gh : Gh) (cb : Bool) (acc : PullSummary × List PullRequest)
    (tn : String × String) : PullSummary × List PullRequest :=
  let repo_pulls := (from_repos (gh.resolve tn.1 tn.2) cb).1
  let added := acc.1.add_pulls repo_pulls
  (added.1, acc.2 ++ added.2)

/-- The collection loop of `report` (`reports.py` lines 372-383): one
`collectStep` per `(target, name)` specification, starting from a fresh
summary and an empty flat list. -/
def collectPhase (gh : Gh) (repos_arg : List (String × String)) (cb : Bool) :
    PullSummary × List PullRequest :=
  repos_arg.foldl (collectStep gh cb) (PullSummary.init, [])

/-- `report(gh, repos, stream, repo_callback, sort_by)` (`reports.py` lines
334-452), modelled as the list of strings printed to the output stream:
collection, the guarded sort, then emission.  `start` and `endT` stand for
the two `datetime.datetime.utcnow()` readings taken at entry and before the
trailer. -/
def report (gh : Gh) (repos_arg : List (String × String)) (cb : Bool)
    (sort_by : String) (start endT : Int) : List String :=
  let collected := collectPhase gh repos_arg cb
  reportEmission start endT collected.1 (sortPhase sort_by collected.2)

-- ### Concrete sample data used by witness theorems

/-- A concrete user record for witnesses. -/
def wUser1 : GhUser := { login := "alice", name := some "Alice" }

/-- A concrete user record with no display name. -/
def wUser2 : GhUser := { login := "bob", name := none }

/-- A concrete raw pull-request record for witnesses. -/
def wRaw1 : RawPull :=
  { number := 1, created_at := 10, updated_at := 90, mergeable := true,
    html_url := "u1", head_label := "h1", base_label := "b1", user := wUser1 }

/-- A concrete raw pull-request record for witnesses. -/
def wRaw2 : RawPull :=
  { number := 2, created_at := 20, updated_at := 80, mergeable := false,
    html_url := "u2", head_label := "h2", base_label := "b2", user := wUser2 }

/-- A concrete raw pull-request record that ties `wRaw1` on `created_at`. -/
def wRaw3 : RawPull :=
  { number := 3, created_at := 10, updated_at := 70, mergeable := true,
    html_url := "u3", head_label := "h3", base_label := "b3", user := wUser1 }

/-- A concrete repository holding two raw pulls. -/
def wRepo1 : Repo := { full_name := "org/r1", get_pulls := [wRaw1, wRaw2] }

/-- A concrete repository holding one raw pull. -/
def wRepo2 : Repo := { full_name := "org/r2", get_pulls := [wRaw3] }

/-- A concrete empty repository. -/
def wRepo3 : Repo := { full_name := "org/r3", get_pulls := [] }

/-- Concrete wrapped pull requests for witnesses. -/
def wPull1 : PullRequest := mkPullRequest wRepo1 wRaw1

/-- Concrete wrapped pull requests for witnesses. -/
def wPull2 : PullRequest := mkPullRequest wRepo1 wRaw2

/-- Concrete wrapped pull requests for witnesses. -/
def wPull3 : PullRequest := mkPullRequest wRepo2 wRaw3

/-- A concrete handle resolving every specification to two repositories. -/
def wGh : Gh := { resolve := fun _ _ => [wRepo1, wRepo2] }

/-- A concrete handle resolving every specification to no repositories. -/
def wGhEmpty : Gh := { resolve := fun _ _ => [] }

-- ### Helper lemmas for the mergeability cache

/-- Accessing `mergeable` any number of times on a wrapper whose cache is
set yields the cached value each time, performs no fetch, and leaves the
state unchanged. -/
theorem mergeableAccessN_cached (v : Bool) :
    ∀ (n : Nat) (p : PullRequest), p.mergeableCache = some v →
      mergeableAccessN n p = (List.replicate n v, 0, p) := by
  intro n
  induction n with
  | zero => intro p _; simp [mergeableAccessN]
  | succ n ih =>
    intro p hp
    simp [mergeableAccessN, PullRequest.mergeableAccess, hp, ih p hp,
      List.replicate_succ]

-- ### C3

/-- C3: for every freshly constructed wrapper, a sequence of `n ≥ 1`
accesses of the `mergeable` property fetches the underlying raw value
exactly once, every access returns that value, and after invalidating the
cache (`del x.mergeable`) the next access fetches from the raw record
again (and returns its value). -/
theorem mergeable_cache_fetches_once (repo : Repo) (rp : RawPull) (n : Nat)
    (hn : 0 < n) :
    (mergeableAccessN n (mkPullRequest repo rp)).1 = List.replicate n rp.mergeable ∧
    (mergeableAccessN n (mkPullRequest repo rp)).2.1 = 1 ∧
    (((mergeableAccessN n (mkPullRequest repo rp)).2.2.mergeableDel).mergeableAccess).1
      = rp.mergeable ∧
    (((mergeableAccessN n (mkPullRequest repo rp)).2.2.mergeableDel).mergeableAccess).2.2
      = true := by
  obtain ⟨m, rfl⟩ : ∃ m, n = m + 1 := ⟨n - 1, (Nat.succ_pred_eq_of_pos hn).symm⟩
  have hcached := mergeableAccessN_cached rp.mergeable m
    { repo := repo, pr := rp, mergeableCache := some rp.mergeable } rfl
  refine ⟨?_, ?_, ?_, ?_⟩ <;>
    simp [mergeableAccessN, mkPullRequest, PullRequest.mergeableAccess, hcached,
      List.replicate_succ, PullRequest.mergeableDel]

/-- Witness for C3 at a concrete wrapper and `n = 3`. -/
theorem mergeable_cache_fetches_once_witness :
    (0 : Nat) < 3 ∧
    (mergeableAccessN 3 (mkPullRequest wRepo1 wRaw1)).1 = List.replicate 3 wRaw1.mergeable ∧
    (mergeableAccessN 3 (mkPullRequest wRepo1 wRaw1)).2.1 = 1 ∧
    (((mergeableAccessN 3 (mkPullRequest wRepo1 wRaw1)).2.2.mergeableDel).mergeableAccess).1
      = wRaw1.mergeable ∧
    (((mergeableAccessN 3 (mkPullRequest wRepo1 wRaw1)).2.2.mergeableDel).mergeableAccess).2.2
      = true :=
  ⟨by decide, mergeable_cache_fetches_once wRepo1 wRaw1 3 (by decide)⟩

-- ### C7

/-- C7: `format_age` returns the empty string whenever the event time is at
or after the reference time (age zero or negative), and otherwise returns
the template with the duration `now - time` substituted for its `%s`
placeholder. -/
theorem format_age_empty_or_substituted (now time : Int) (fmt : String) :
    (now ≤ time → format_age now time fmt = "") ∧
    (time < now →
      format_age now time fmt
        = String.intercalate (toString (now - time)) (fmt.splitOn "%s")) := by
  constructor
  · intro h
    have hage : now - time ≤ td_zero := by simp [td_zero]; omega
    simp [format_age, hage]
  · intro h
    have hage : ¬ now - time ≤ td_zero := by simp [td_zero]; omega
    simp [format_age, hage]

/-- Witness for C7: a zero age, a negative age and a positive age at
concrete times. -/
theorem format_age_empty_or_substituted_witness :
    ((5 : Int) ≤ 5 ∧ format_age 5 5 " (age: %s)" = "") ∧
    ((5 : Int) ≤ 7 ∧ format_age 5 7 " (age: %s)" = "") ∧
    ((2 : Int) < 9 ∧
      format_age 9 2 " (age: %s)"
        = String.intercalate (toString ((9 : Int) - 2)) (" (age: %s)".splitOn "%s")) :=
  ⟨⟨by decide, (format_age_empty_or_substituted 5 5 " (age: %s)").1 (by decide)⟩,
   ⟨by decide, (format_age_empty_or_substituted 5 7 " (age: %s)").1 (by decide)⟩,
   ⟨by decide, (format_age_empty_or_substituted 9 2 " (age: %s)").2 (by decide)⟩⟩

-- ### C1

/-- The loop of `_from_repos` starting at index `idx` returns the
concatenation of the wrapped per-repository lists and (when the callback is
non-null) the pre/post callback pairs for the enumeration of the remaining
repositories from `idx`. -/
theorem from_reposAux_spec (total : Nat) (cb : Bool) :
    ∀ (rs : List Repo) (idx : Nat),
      (from_reposAux total cb idx rs).1 = rs.flatMap wrapPulls ∧
      (from_reposAux total cb idx rs).2 =
        (if cb then
          (List.enumFrom idx rs).flatMap
            (fun ir => [CbCall.pre ir.1 total ir.2,
                        CbCall.post ir.1 total ir.2 (wrapPulls ir.2)])
         else []) := by
  intro rs
  induction rs with
  | nil => intro idx; cases cb <;> simp [from_reposAux]
  | cons repo rest ih =>
    intro idx
    obtain ⟨ih1, ih2⟩ := ih (idx + 1)
    cases cb <;> simp [from_reposAux, List.enumFrom_cons, ih1, ih2]

/-- C1: for every repository sequence and callback flag, `_from_repos`
returns the concatenation of the wrapped raw-pull lists `wrapped(L1), ...,
wrapped(Ln)` in repository order (each raw pull wrapped with its owning
repository), and its callback trace is exactly `cb(i, n, repo_i)` followed
by `cb(i, n, repo_i, wrapped(Li))` for each index `i` in ascending order if
the callback is non-null, and empty otherwise. -/
theorem from_repos_concat_and_callback_trace (repos : List Repo) (cb : Bool) :
    (from_repos repos cb).1 = repos.flatMap wrapPulls ∧
    (from_repos repos cb).2 =
      (if cb then
        repos.enum.flatMap
          (fun ir => [CbCall.pre ir.1 repos.length ir.2,
                      CbCall.post ir.1 repos.length ir.2 (wrapPulls ir.2)])
       else []) := by
  have h := from_reposAux_spec repos.length cb repos 0
  simpa [from_repos, List.enum] using h

-- ### Helper lemmas for the extremal-reference tracker

/-- The running minimum never exceeds its seed. -/
theorem foldMinKey_le_init (key : PullRequest → Int) :
    ∀ (ps : List PullRequest) (k : Int), foldMinKey key k ps ≤ k := by
  intro ps
  induction ps with
  | nil => intro k; simp [foldMinKey]
  | cons p ps ih =>
    intro k
    have h1 : foldMinKey key k (p :: ps) = foldMinKey key (min k (key p)) ps := rfl
    rw [h1]
    exact le_trans (ih _) (min_le_left _ _)

/-- The running minimum is a lower bound for every listed key. -/
theorem foldMinKey_le_mem (key : PullRequest → Int) :
    ∀ (ps : List PullRequest) (k : Int) (r : PullRequest), r ∈ ps →
      foldMinKey key k ps ≤ key r := by
  intro ps
  induction ps with
  | nil => intro k r hr; cases hr
  | cons p ps ih =>
    intro k r hr
    have h1 : foldMinKey key k (p :: ps) = foldMinKey key (min k (key p)) ps := rfl
    rw [h1]
    rcases List.mem_cons.mp hr with rfl | hr2
    · exact le_trans (foldMinKey_le_init key ps _) (min_le_right _ _)
    · exact ih _ r hr2

/-- The running minimum is its seed or some listed key. -/
theorem foldMinKey_attained (key : PullRequest → Int) :
    ∀ (ps : List PullRequest) (k : Int),
      foldMinKey key k ps = k ∨ ∃ r ∈ ps, foldMinKey key k ps = key r := by
  intro ps
  induction ps with
  | nil => intro k; left; rfl
  | cons p ps ih =>
    intro k
    have h1 : foldMinKey key k (p :: ps) = foldMinKey key (min k (key p)) ps := rfl
    rcases ih (min k (key p)) with hA | ⟨r, hr, hA⟩
    · rcases le_total k (key p) with hk | hk
      · left; rw [h1, hA, min_eq_left hk]
      · right
        exact ⟨p, List.mem_cons_self p ps, by rw [h1, hA, min_eq_right hk]⟩
    · right
      exact ⟨r, List.mem_cons_of_mem p hr, by rw [h1, hA]⟩

/-- The running maximum never drops below its seed. -/
theorem foldMaxKey_ge_init (key : PullRequest → Int) :
    ∀ (ps : List PullRequest) (k : Int), k ≤ foldMaxKey key k ps := by
  intro ps
  induction ps with
  | nil => intro k; simp [foldMaxKey]
  | cons p ps ih =>
    intro k
    have h1 : foldMaxKey key k (p :: ps) = foldMaxKey key (max k (key p)) ps := rfl
    rw [h1]
    exact le_trans (le_max_left _ _) (ih _)

/-- The running maximum is an upper bound for every listed key. -/
theorem foldMaxKey_ge_mem (key : PullRequest → Int) :
    ∀ (ps : List PullRequest) (k : Int) (r : PullRequest), r ∈ ps →
      key r ≤ foldMaxKey key k ps := by
  intro ps
  induction ps with
  | nil => intro k r hr; cases hr
  | cons p ps ih =>
    intro k r hr
    have h1 : foldMaxKey key k (p :: ps) = foldMaxKey key (max k (key p)) ps := rfl
    rw [h1]
    rcases List.mem_cons.mp hr with rfl | hr2
    · exact le_trans (le_max_right _ _) (foldMaxKey_ge_init key ps _)
    · exact ih _ r hr2

/-- The running maximum is its seed or some listed key. -/
theorem foldMaxKey_attained (key : PullRequest → Int) :
    ∀ (ps : List PullRequest) (k : Int),
      foldMaxKey key k ps = k ∨ ∃ r ∈ ps, foldMaxKey key k ps = key r := by
  intro ps
  induction ps with
  | nil => intro k; left; rfl
  | cons p ps ih =>
    intro k
    have h1 : foldMaxKey key k (p :: ps) = foldMaxKey key (max k (key p)) ps := rfl
    rcases ih (max k (key p)) with hA | ⟨r, hr, hA⟩
    · rcases le_total k (key p) with hk | hk
      · right
        exact ⟨p, List.mem_cons_self p ps, by rw [h1, hA, max_eq_right hk]⟩
      · left; rw [h1, hA, max_eq_left hk]
    · right
      exact ⟨r, List.mem_cons_of_mem p hr, by rw [h1, hA]⟩

/-- `find?` only looks at the predicate values on the list elements. -/
theorem find?_ext {α : Type} (p q : α → Bool) :
    ∀ (l : List α), (∀ a ∈ l, p a = q a) → l.find? p = l.find? q := by
  intro l
  induction l with
  | nil => intro _; rfl
  | cons a l ih =>
    intro h
    have ha : p a = q a := h a (List.mem_cons_self a l)
    cases hq : q a with
    | true =>
      rw [List.find?_cons_of_pos _ (ha.trans hq), List.find?_cons_of_pos _ hq]
    | false =>
      rw [List.find?_cons_of_neg _ (by simp [ha, hq]),
        List.find?_cons_of_neg _ (by simp [hq])]
      exact ih fun b hb => h b (List.mem_cons_of_mem a hb)

/-- Folding the strict minimum-tracking step over the list keeps the first
element that attains the running minimum. -/
theorem foldl_minStep_eq_find (key : PullRequest → Int) :
    ∀ (ps : List PullRequest) (c : PullRequest),
      ps.foldl (minStep key) (some c)
        = (c :: ps).find? (fun q => decide (key q = foldMinKey key (key c) ps)) := by
  intro ps
  induction ps with
  | nil =>
    intro c
    rw [List.foldl_nil, List.find?_cons_of_pos _ (by simp [foldMinKey])]
  | cons p ps ih =>
    intro c
    by_cases h : key c > key p
    · have hstep : minStep key (some c) p = some p := by simp [minStep, h]
      have hm : foldMinKey key (key c) (p :: ps) = foldMinKey key (key p) ps := by
        have h1 : foldMinKey key (key c) (p :: ps)
            = foldMinKey key (min (key c) (key p)) ps := rfl
        rw [h1, min_eq_right (le_of_lt h)]
      have hL : (p :: ps).foldl (minStep key) (some c)
          = ps.foldl (minStep key) (some p) := by
        rw [List.foldl_cons, hstep]
      rw [hL, ih p, hm]
      have hc : ¬ (key c = foldMinKey key (key p) ps) := by
        have hle := foldMinKey_le_init key ps (key p)
        omega
      have hr := List.find?_cons_of_neg
        (p := fun q => decide (key q = foldMinKey key (key p) ps)) (a := c)
        (p :: ps) (by simpa using hc)
      rw [hr]
    · have hcp : key c ≤ key p := by omega
      have hstep : minStep key (some c) p = some c := by simp [minStep, h]
      have hm : foldMinKey key (key c) (p :: ps) = foldMinKey key (key c) ps := by
        have h1 : foldMinKey key (key c) (p :: ps)
            = foldMinKey key (min (key c) (key p)) ps := rfl
        rw [h1, min_eq_left hcp]
      have hL : (p :: ps).foldl (minStep key) (some c)
          = ps.foldl (minStep key) (some c) := by
        rw [List.foldl_cons, hstep]
      rw [hL, ih c, hm]
      by_cases hc : key c = foldMinKey key (key c) ps
      · rw [List.find?_cons_of_pos _ (by simpa using hc),
          List.find?_cons_of_pos _ (by simpa using hc)]
      · have hp2 : ¬ (key p = foldMinKey key (key c) ps) := by
          have hle := foldMinKey_le_init key ps (key c)
          omega
        rw [List.find?_cons_of_neg _ (by simpa using hc),
          List.find?_cons_of_neg _ (by simpa using hc),
          List.find?_cons_of_neg _ (by simpa using hp2)]

/-- Folding the strict maximum-tracking step over the list keeps the first
element that attains the running maximum. -/
theorem foldl_maxStep_eq_find (key : PullRequest → Int) :
    ∀ (ps : List PullRequest) (c : PullRequest),
      ps.foldl (maxStep key) (some c)
        = (c :: ps).find? (fun q => decide (key q = foldMaxKey key (key c) ps)) := by
  intro ps
  induction ps with
  | nil =>
    intro c
    rw [List.foldl_nil, List.find?_cons_of_pos _ (by simp [foldMaxKey])]
  | cons p ps ih =>
    intro c
    by_cases h : key c < key p
    · have hstep : maxStep key (some c) p = some p := by simp [maxStep, h]
      have hm : foldMaxKey key (key c) (p :: ps) = foldMaxKey key (key p) ps := by
        have h1 : foldMaxKey key (key c) (p :: ps)
            = foldMaxKey key (max (key c) (key p)) ps := rfl
        rw [h1, max_eq_right (le_of_lt h)]
      have hL : (p :: ps).foldl (maxStep key) (some c)
          = ps.foldl (maxStep key) (some p) := by
        rw [List.foldl_cons, hstep]
      rw [hL, ih p, hm]
      have hc : ¬ (key c = foldMaxKey key (key p) ps) := by
        have hle := foldMaxKey_ge_init key ps (key p)
        omega
      have hr := List.find?_cons_of_neg
        (p := fun q => decide (key q = foldMaxKey key (key p) ps)) (a := c)
        (p :: ps) (by simpa using hc)
      rw [hr]
    · have hcp : key p ≤ key c := by omega
      have hstep : maxStep key (some c) p = some c := by simp [maxStep, h]
      have hm : foldMaxKey key (key c) (p :: ps) = foldMaxKey key (key c) ps := by
        have h1 : foldMaxKey key (key c) (p :: ps)
            = foldMaxKey key (max (key c) (key p)) ps := rfl
        rw [h1, max_eq_left hcp]
      have hL : (p :: ps).foldl (maxStep key) (some c)
          = ps.foldl (maxStep key) (some c) := by
        rw [List.foldl_cons, hstep]
      rw [hL, ih c, hm]
      by_cases hc : key c = foldMaxKey key (key c) ps
      · rw [List.find?_cons_of_pos _ (by simpa using hc),
          List.find?_cons_of_pos _ (by simpa using hc)]
      · have hp2 : ¬ (key p = foldMaxKey key (key c) ps) := by
          have hle := foldMaxKey_ge_init key ps (key c)
          omega
        rw [List.find?_cons_of_neg _ (by simpa using hc),
          List.find?_cons_of_neg _ (by simpa using hc),
          List.find?_cons_of_neg _ (by simpa using hp2)]

-- ### Bridging the summary tracker to the step folds

/-- The `oldest` reference after folding `add_pull` is the fold of the
strict minimum-tracking step on `created_at`. -/
theorem foldl_add_pull_oldest :
    ∀ (ps : List PullRequest) (s : PullSummary),
      (ps.foldl PullSummary.add_pull s).oldest
        = ps.foldl (minStep PullRequest.created_at) s.oldest := by
  intro ps
  induction ps with
  | nil => intro s; rfl
  | cons p ps ih =>
    intro s
    rw [List.foldl_cons, List.foldl_cons]
    exact ih (s.add_pull p)

/-- The `youngest` reference after folding `add_pull` is the fold of the
strict maximum-tracking step on `created_at`. -/
theorem foldl_add_pull_youngest :
    ∀ (ps : List PullRequest) (s : PullSummary),
      (ps.foldl PullSummary.add_pull s).youngest
        = ps.foldl (maxStep PullRequest.created_at) s.youngest := by
  intro ps
  induction ps with
  | nil => intro s; rfl
  | cons p ps ih =>
    intro s
    rw [List.foldl_cons, List.foldl_cons]
    exact ih (s.add_pull p)

/-- The `least_recent` reference after folding `add_pull` is the fold of
the strict minimum-tracking step on `updated_at`. -/
theorem foldl_add_pull_least_recent :
    ∀ (ps : List PullRequest) (s : PullSummary),
      (ps.foldl PullSummary.add_pull s).least_recent
        = ps.foldl (minStep PullRequest.updated_at) s.least_recent := by
  intro ps
  induction ps with
  | nil => intro s; rfl
  | cons p ps ih =>
    intro s
    rw [List.foldl_cons, List.foldl_cons]
    exact ih (s.add_pull p)

/-- The `most_recent` reference after folding `add_pull` is the fold of
the strict maximum-tracking step on `updated_at`. -/
theorem foldl_add_pull_most_recent :
    ∀ (ps : List PullRequest) (s : PullSummary),
      (ps.foldl PullSummary.add_pull s).most_recent
        = ps.foldl (maxStep PullRequest.updated_at) s.most_recent := by
  intro ps
  induction ps with
  | nil => intro s; rfl
  | cons p ps ih =>
    intro s
    rw [List.foldl_cons, List.foldl_cons]
    exact ih (s.add_pull p)

/-- Over the elements of `p0 :: rest`, attaining the running minimum is
the same as being a global lower bound of the keys. -/
theorem key_eq_foldMin_iff (key : PullRequest → Int) (p0 : PullRequest)
    (rest : List PullRequest) (q : PullRequest) (hq : q ∈ p0 :: rest) :
    (key q = foldMinKey key (key p0) rest)
      ↔ (∀ r ∈ p0 :: rest, key q ≤ key r) := by
  constructor
  · intro h r hr
    rcases List.mem_cons.mp hr with rfl | hr2
    · rw [h]; exact foldMinKey_le_init key rest _
    · rw [h]; exact foldMinKey_le_mem key rest _ r hr2
  · intro h
    have hub : key q ≤ foldMinKey key (key p0) rest := by
      rcases foldMinKey_attained key rest (key p0) with hA | ⟨r, hr, hA⟩
      · rw [hA]; exact h p0 (List.mem_cons_self p0 rest)
      · rw [hA]; exact h r (List.mem_cons_of_mem p0 hr)
    have hlb : foldMinKey key (key p0) rest ≤ key q := by
      rcases List.mem_cons.mp hq with hq1 | hq2
      · rw [hq1]; exact foldMinKey_le_init key rest _
      · exact foldMinKey_le_mem key rest _ q hq2
    omega

/-- Over the elements of `p0 :: rest`, attaining the running maximum is
the same as being a global upper bound of the keys. -/
theorem key_eq_foldMax_iff (key : PullRequest → Int) (p0 : PullRequest)
    (rest : List PullRequest) (q : PullRequest) (hq : q ∈ p0 :: rest) :
    (key q = foldMaxKey key (key p0) rest)
      ↔ (∀ r ∈ p0 :: rest, key r ≤ key q) := by
  constructor
  · intro h r hr
    rcases List.mem_cons.mp hr with rfl | hr2
    · rw [h]; exact foldMaxKey_ge_init key rest _
    · rw [h]; exact foldMaxKey_ge_mem key rest _ r hr2
  · intro h
    have hub : foldMaxKey key (key p0) rest ≤ key q := by
      rcases foldMaxKey_attained key rest (key p0) with hA | ⟨r, hr, hA⟩
      · rw [hA]; exact h p0 (List.mem_cons_self p0 rest)
      · rw [hA]; exact h r (List.mem_cons_of_mem p0 hr)
    have hlb : key q ≤ foldMaxKey key (key p0) rest := by
      rcases List.mem_cons.mp hq with hq1 | hq2
      · rw [hq1]; exact foldMaxKey_ge_init key rest _
      · exact foldMaxKey_ge_mem key rest _ q hq2
    omega

-- ### C2

/-- C2: after adding any nonempty sequence of pull requests to a fresh
summary (in any order), each of the four references holds exactly the
first pull request, in addition order, attaining the corresponding
extreme: `oldest` the first with minimal `created_at`, `youngest` the
first with maximal `created_at`, `least_recent` the first with minimal
`updated_at`, and `most_recent` the first with maximal `updated_at` — the
strict comparisons keep the first-seen pull on ties. -/
theorem pull_summary_first_extremes (ps : List PullRequest) (h : ps ≠ []) :
    ((PullSummary.init.add_pulls ps).1.oldest
        = ps.find? (fun q => decide (∀ r ∈ ps, q.created_at ≤ r.created_at))) ∧
    ((PullSummary.init.add_pulls ps).1.youngest
        = ps.find? (fun q => decide (∀ r ∈ ps, r.created_at ≤ q.created_at))) ∧
    ((PullSummary.init.add_pulls ps).1.least_recent
        = ps.find? (fun q => decide (∀ r ∈ ps, q.updated_at ≤ r.updated_at))) ∧
    ((PullSummary.init.add_pulls ps).1.most_recent
        = ps.find? (fun q => decide (∀ r ∈ ps, r.updated_at ≤ q.updated_at))) := by
  obtain ⟨p0, rest, rfl⟩ := List.exists_cons_of_ne_nil h
  refine ⟨?_, ?_, ?_, ?_⟩
  · show ((p0 :: rest).foldl PullSummary.add_pull PullSummary.init).oldest = _
    rw [foldl_add_pull_oldest, List.foldl_cons]
    show rest.foldl (minStep PullRequest.created_at) (some p0) = _
    rw [foldl_minStep_eq_find]
    exact find?_ext _ _ _ fun q hq =>
      decide_eq_decide.mpr (key_eq_foldMin_iff PullRequest.created_at p0 rest q hq)
  · show ((p0 :: rest).foldl PullSummary.add_pull PullSummary.init).youngest = _
    rw [foldl_add_pull_youngest, List.foldl_cons]
    show rest.foldl (maxStep PullRequest.created_at) (some p0) = _
    rw [foldl_maxStep_eq_find]
    exact find?_ext _ _ _ fun q hq =>
      decide_eq_decide.mpr (key_eq_foldMax_iff PullRequest.created_at p0 rest q hq)
  · show ((p0 :: rest).foldl PullSummary.add_pull PullSummary.init).least_recent = _
    rw [foldl_add_pull_least_recent, List.foldl_cons]
    show rest.foldl (minStep PullRequest.updated_at) (some p0) = _
    rw [foldl_minStep_eq_find]
    exact find?_ext _ _ _ fun q hq =>
      decide_eq_decide.mpr (key_eq_foldMin_iff PullRequest.updated_at p0 rest q hq)
  · show ((p0 :: rest).foldl PullSummary.add_pull PullSummary.init).most_recent = _
    rw [foldl_add_pull_most_recent, List.foldl_cons]
    show rest.foldl (maxStep PullRequest.updated_at) (some p0) = _
    rw [foldl_maxStep_eq_find]
    exact find?_ext _ _ _ fun q hq =>
      decide_eq_decide.mpr (key_eq_foldMax_iff PullRequest.updated_at p0 rest q hq)

/-- Witness for C2 at a concrete three-pull list in which the first and
third pulls tie on `created_at`. -/
theorem pull_summary_first_extremes_witness :
    ([wPull1, wPull2, wPull3] : List PullRequest) ≠ [] ∧
    (((PullSummary.init.add_pulls [wPull1, wPull2, wPull3]).1.oldest
        = [wPull1, wPull2, wPull3].find?
            (fun q => decide (∀ r ∈ [wPull1, wPull2, wPull3],
              q.created_at ≤ r.created_at))) ∧
     ((PullSummary.init.add_pulls [wPull1, wPull2, wPull3]).1.youngest
        = [wPull1, wPull2, wPull3].find?
            (fun q => decide (∀ r ∈ [wPull1, wPull2, wPull3],
              r.created_at ≤ q.created_at))) ∧
     ((PullSummary.init.add_pulls [wPull1, wPull2, wPull3]).1.least_recent
        = [wPull1, wPull2, wPull3].find?
            (fun q => decide (∀ r ∈ [wPull1, wPull2, wPull3],
              q.updated_at ≤ r.updated_at))) ∧
     ((PullSummary.init.add_pulls [wPull1, wPull2, wPull3]).1.most_recent
        = [wPull1, wPull2, wPull3].find?
            (fun q => decide (∀ r ∈ [wPull1, wPull2, wPull3],
              r.updated_at ≤ q.updated_at)))) :=
  ⟨by simp, pull_summary_first_extremes [wPull1, wPull2, wPull3] (by simp)⟩

-- ### C9

/-- Folding the minimum-tracking step from a set reference keeps it set. -/
theorem foldl_minStep_isSome (key : PullRequest → Int) :
    ∀ (ps : List PullRequest) (c : PullRequest),
      (ps.foldl (minStep key) (some c)).isSome := by
  intro ps
  induction ps with
  | nil => intro c; rfl
  | cons p ps ih =>
    intro c
    rw [List.foldl_cons]
    by_cases h : key c > key p
    · have hstep : minStep key (some c) p = some p := by simp [minStep, h]
      rw [hstep]; exact ih p
    · have hstep : minStep key (some c) p = some c := by simp [minStep, h]
      rw [hstep]; exact ih c

/-- Folding the maximum-tracking step from a set reference keeps it set. -/
theorem foldl_maxStep_isSome (key : PullRequest → Int) :
    ∀ (ps : List PullRequest) (c : PullRequest),
      (ps.foldl (maxStep key) (some c)).isSome := by
  intro ps
  induction ps with
  | nil => intro c; rfl
  | cons p ps ih =>
    intro c
    rw [List.foldl_cons]
    by_cases h : key c < key p
    · have hstep : maxStep key (some c) p = some p := by simp [maxStep, h]
      rw [hstep]; exact ih p
    · have hstep : maxStep key (some c) p = some c := by simp [maxStep, h]
      rw [hstep]; exact ih c

/-- Along the collection loop, the summary component is always the fold of
`add_pull` over the flat list collected so far. -/
theorem collect_foldl_summary (gh : Gh) (cb : Bool) :
    ∀ (specs : List (String × String)) (acc : PullSummary × List PullRequest),
      acc.1 = acc.2.foldl PullSummary.add_pull PullSummary.init →
      (specs.foldl (collectStep gh cb) acc).1
        = (specs.foldl (collectStep gh cb) acc).2.foldl
            PullSummary.add_pull PullSummary.init := by
  intro specs
  induction specs with
  | nil => intro acc h; exact h
  | cons tn specs ih =>
    intro acc h
    rw [List.foldl_cons]
    apply ih
    have h1 : (collectStep gh cb acc tn).1
        = ((from_repos (gh.resolve tn.1 tn.2) cb).1).foldl
            PullSummary.add_pull acc.1 := rfl
    have h2 : (collectStep gh cb acc tn).2
        = acc.2 ++ (from_repos (gh.resolve tn.1 tn.2) cb).1 := rfl
    rw [h1, h2, h, List.foldl_append]

/-- The summary produced by the collection phase is the fold of `add_pull`
over the collected flat pull list. -/
theorem collectPhase_summary (gh : Gh) (specs : List (String × String))
    (cb : Bool) :
    (collectPhase gh specs cb).1
      = (collectPhase gh specs cb).2.foldl PullSummary.add_pull
          PullSummary.init :=
  collect_foldl_summary gh cb specs (PullSummary.init, []) rfl

/-- C9: whenever the collection phase produced at least one pull request,
all four references of its summary are set, so the summary block of the
report never dereferences an unset reference when the collected list is
nonempty. -/
theorem collect_nonempty_refs_set (gh : Gh) (specs : List (String × String))
    (cb : Bool) (h : (collectPhase gh specs cb).2 ≠ []) :
    (collectPhase gh specs cb).1.oldest.isSome ∧
    (collectPhase gh specs cb).1.youngest.isSome ∧
    (collectPhase gh specs cb).1.least_recent.isSome ∧
    (collectPhase gh specs cb).1.most_recent.isSome := by
  obtain ⟨p0, rest, hps⟩ := List.exists_cons_of_ne_nil h
  have hs := collectPhase_summary gh specs cb
  rw [hps] at hs
  refine ⟨?_, ?_, ?_, ?_⟩
  · rw [hs, foldl_add_pull_oldest, List.foldl_cons]
    exact foldl_minStep_isSome PullRequest.created_at rest p0
  · rw [hs, foldl_add_pull_youngest, List.foldl_cons]
    exact foldl_maxStep_isSome PullRequest.created_at rest p0
  · rw [hs, foldl_add_pull_least_recent, List.foldl_cons]
    exact foldl_minStep_isSome PullRequest.updated_at rest p0
  · rw [hs, foldl_add_pull_most_recent, List.foldl_cons]
    exact foldl_maxStep_isSome PullRequest.updated_at rest p0

/-- Witness for C9 at a concrete handle that yields three pull requests
for a single specification. -/
theorem collect_nonempty_refs_set_witness :
    (collectPhase wGh [("repo", "org/r1")] false).2 ≠ [] ∧
    ((collectPhase wGh [("repo", "org/r1")] false).1.oldest.isSome ∧
     (collectPhase wGh [("repo", "org/r1")] false).1.youngest.isSome ∧
     (collectPhase wGh [("repo", "org/r1")] false).1.least_recent.isSome ∧
     (collectPhase wGh [("repo", "org/r1")] false).1.most_recent.isSome) :=
  ⟨by decide, collect_nonempty_refs_set wGh [("repo", "org/r1")] false (by decide)⟩

-- ### C5

/-- C5: for every sort key outside the `sort_keys` mapping, the sort phase
leaves the collected pull list exactly in collection order, and `report`
proceeds to emit the report over that unchanged order (it raises no error:
the embedding is a total function and the guard skips the sort). -/
theorem unrecognized_sort_key_keeps_order (gh : Gh)
    (specs : List (String × String)) (cb : Bool) (sort_by : String)
    (start endT : Int) (h : sort_by ∉ sort_keys) :
    sortPhase sort_by ((collectPhase gh specs cb).2)
      = (collectPhase gh specs cb).2 ∧
    report gh specs cb sort_by start endT
      = reportEmission start endT (collectPhase gh specs cb).1
          (collectPhase gh specs cb).2 := by
  have h1 : ∀ l : List PullRequest, sortPhase sort_by l = l := by
    intro l
    simp [sortPhase, h]
  exact ⟨h1 _, by simp [report, h1]⟩

/-- Witness for C5 at a concrete unrecognized key and a handle resolving a
specification to two repositories with three pulls. -/
theorem unrecognized_sort_key_keeps_order_witness :
    "alphabetical" ∉ sort_keys ∧
    (sortPhase "alphabetical" ((collectPhase wGh [("repo", "org/r1")] false).2)
        = (collectPhase wGh [("repo", "org/r1")] false).2 ∧
     report wGh [("repo", "org/r1")] false "alphabetical" 0 1
        = reportEmission 0 1 (collectPhase wGh [("repo", "org/r1")] false).1
            (collectPhase wGh [("repo", "org/r1")] false).2) :=
  ⟨by decide,
   unrecognized_sort_key_keeps_order wGh [("repo", "org/r1")] false
     "alphabetical" 0 1 (by decide)⟩

-- ### C6

/-- C6: whenever the collected flat pull list is empty (zero repositories
or repositories with no open pulls), the report written to the output
stream is exactly the single line `No open pull requests`, with no summary
block, per-pull blocks, breakdown, or trailer. -/
theorem empty_collection_single_line (gh : Gh)
    (specs : List (String × String)) (cb : Bool) (sort_by : String)
    (start endT : Int) (h : (collectPhase gh specs cb).2 = []) :
    report gh specs cb sort_by start endT = ["No open pull requests"] := by
  have h1 : sortPhase sort_by ([] : List PullRequest) = [] := by
    simp [sortPhase]
  simp [report, h, h1, reportEmission]

/-- Witness for C6 at a handle that resolves the specification to no
repositories. -/
theorem empty_collection_single_line_witness :
    (collectPhase wGhEmpty [("repo", "org/r1")] false).2 = [] ∧
    report wGhEmpty [("repo", "org/r1")] false "created" 0 1
      = ["No open pull requests"] :=
  ⟨by decide,
   empty_collection_single_line wGhEmpty [("repo", "org/r1")] false
     "created" 0 1 (by decide)⟩

-- ### C4

/-- The key comparison of every sort key is transitive. -/
theorem sortKeyLe_trans (sort_by : String) (a b c : PullRequest)
    (hab : sortKeyLe sort_by a b = true) (hbc : sortKeyLe sort_by b c = true) :
    sortKeyLe sort_by a c = true := by
  by_cases h1 : sort_by = "created"
  · have e : ∀ u v : PullRequest, sortKeyLe sort_by u v
        = decide (u.created_at ≤ v.created_at) := by
      intro u v; unfold sortKeyLe; rw [if_pos h1]
    rw [e, decide_eq_true_eq] at hab hbc ⊢
    omega
  by_cases h2 : sort_by = "updated"
  · have e : ∀ u v : PullRequest, sortKeyLe sort_by u v
        = decide (u.updated_at ≤ v.updated_at) := by
      intro u v; unfold sortKeyLe; rw [if_neg h1, if_pos h2]
    rw [e, decide_eq_true_eq] at hab hbc ⊢
    omega
  · have e : ∀ u v : PullRequest, sortKeyLe sort_by u v
        = decide (u.repo.full_name < v.repo.full_name ∨
            (u.repo.full_name = v.repo.full_name ∧ u.number ≤ v.number)) := by
      intro u v; unfold sortKeyLe; rw [if_neg h1, if_neg h2]
    rw [e, decide_eq_true_eq] at hab hbc ⊢
    rcases hab with hab | ⟨hab1, hab2⟩ <;> rcases hbc with hbc | ⟨hbc1, hbc2⟩
    · exact Or.inl (lt_trans hab hbc)
    · exact Or.inl (lt_of_lt_of_eq hab hbc1)
    · exact Or.inl (lt_of_eq_of_lt hab1 hbc)
    · exact Or.inr ⟨hab1.trans hbc1, le_trans hab2 hbc2⟩

/-- The key comparison of every sort key is total. -/
theorem sortKeyLe_total (sort_by : String) (a b : PullRequest) :
    (sortKeyLe sort_by a b || sortKeyLe sort_by b a) = true := by
  by_cases h1 : sort_by = "created"
  · have e : ∀ u v : PullRequest, sortKeyLe sort_by u v
        = decide (u.created_at ≤ v.created_at) := by
      intro u v; unfold sortKeyLe; rw [if_pos h1]
    rw [e, e]
    simp only [Bool.or_eq_true, decide_eq_true_eq]
    omega
  by_cases h2 : sort_by = "updated"
  · have e : ∀ u v : PullRequest, sortKeyLe sort_by u v
        = decide (u.updated_at ≤ v.updated_at) := by
      intro u v; unfold sortKeyLe; rw [if_neg h1, if_pos h2]
    rw [e, e]
    simp only [Bool.or_eq_true, decide_eq_true_eq]
    omega
  · have e : ∀ u v : PullRequest, sortKeyLe sort_by u v
        = decide (u.repo.full_name < v.repo.full_name ∨
            (u.repo.full_name = v.repo.full_name ∧ u.number ≤ v.number)) := by
      intro u v; unfold sortKeyLe; rw [if_neg h1, if_neg h2]
    rw [e, e]
    simp only [Bool.or_eq_true, decide_eq_true_eq]
    rcases lt_trichotomy a.repo.full_name b.repo.full_name with h | h | h
    · exact Or.inl (Or.inl h)
    · rcases le_total a.number b.number with hn | hn
      · exact Or.inl (Or.inr ⟨h, hn⟩)
      · exact Or.inr (Or.inr ⟨h.symm, hn⟩)
    · exact Or.inr (Or.inl h)

/-- Stability of the stable sort, in filter form: the subsequence of
elements tied with any fixed element is unchanged by sorting. -/
theorem mergeSort_filter_tied (le : PullRequest → PullRequest → Bool)
    (htrans : ∀ a b c, le a b = true → le b c = true → le a c = true)
    (htotal : ∀ a b, (le a b || le b a) = true)
    (x : PullRequest) (l : List PullRequest) :
    (l.mergeSort le).filter (fun q => le x q && le q x)
      = l.filter (fun q => le x q && le q x) := by
  have hpw : (l.filter (fun q => le x q && le q x)).Pairwise
      (fun a b => le a b = true) := by
    apply List.pairwise_of_forall_mem_list
    intro a ha b hb
    have ha2 := (List.mem_filter.mp ha).2
    have hb2 := (List.mem_filter.mp hb).2
    simp only [Bool.and_eq_true] at ha2 hb2
    exact htrans a x b ha2.2 hb2.1
  have hsub : (l.filter (fun q => le x q && le q x)).Sublist (l.mergeSort le) :=
    List.sublist_mergeSort htrans htotal hpw (List.filter_sublist l)
  have hsub2 := hsub.filter (fun q => le x q && le q x)
  have hff : (l.filter (fun q => le x q && le q x)).filter
      (fun q => le x q && le q x) = l.filter (fun q => le x q && le q x) :=
    List.filter_eq_self.mpr fun a ha => (List.mem_filter.mp ha).2
  rw [hff] at hsub2
  have hperm : ((l.mergeSort le).filter (fun q => le x q && le q x)).Perm
      (l.filter (fun q => le x q && le q x)) :=
    (List.mergeSort_perm l le).filter _
  exact (hsub2.eq_of_length hperm.length_eq.symm).symm

/-- C4: for every recognized sort key, the sort phase orders the collected
pull list non-decreasingly by that key, and it is stable: the subsequence
of pulls tied with any fixed pull on the key keeps its relative collection
order. -/
theorem sort_phase_sorted_and_stable (sort_by : String) (x : PullRequest)
    (l : List PullRequest) (h : sort_by ∈ sort_keys) :
    (sortPhase sort_by l).Pairwise (fun a b => sortKeyLe sort_by a b = true) ∧
    (sortPhase sort_by l).filter
        (fun q => sortKeyLe sort_by x q && sortKeyLe sort_by q x)
      = l.filter (fun q => sortKeyLe sort_by x q && sortKeyLe sort_by q x) := by
  have hs : sortPhase sort_by l = l.mergeSort (sortKeyLe sort_by) := by
    simp [sortPhase, h]
  rw [hs]
  exact ⟨List.sorted_mergeSort (sortKeyLe_trans sort_by)
      (sortKeyLe_total sort_by) l,
    mergeSort_filter_tied (sortKeyLe sort_by) (sortKeyLe_trans sort_by)
      (sortKeyLe_total sort_by) x l⟩

/-- Witness for C4 at the `created` key and a concrete two-pull list. -/
theorem sort_phase_sorted_and_stable_witness :
    "created" ∈ sort_keys ∧
    ((sortPhase "created" [wPull2, wPull1]).Pairwise
        (fun a b => sortKeyLe "created" a b = true) ∧
     (sortPhase "created" [wPull2, wPull1]).filter
         (fun q => sortKeyLe "created" wPull1 q && sortKeyLe "created" q wPull1)
       = [wPull2, wPull1].filter
         (fun q => sortKeyLe "created" wPull1 q && sortKeyLe "created" q wPull1)) :=
  ⟨by decide,
   sort_phase_sorted_and_stable "created" wPull1 [wPull2, wPull1] (by decide)⟩

-- ### C8

/-- C8: for every pull list, the repository-breakdown rows are sorted
ascending by repository full name, regardless of pull emission order. -/
theorem breakdown_rows_sorted_by_name (pulls : List PullRequest) :
    (repoBreakdown pulls).Pairwise (fun a b => a.name ≤ b.name) := by
  have hs := @List.sorted_mergeSort RepoSummary
    (fun a b => decide (a.name ≤ b.name))
    (fun a b c hab hbc => by
      rw [decide_eq_true_eq] at hab hbc ⊢
      exact le_trans hab hbc)
    (fun a b => by
      simp only [Bool.or_eq_true, decide_eq_true_eq]
      exact le_total a.name b.name)
    (repoSummaries pulls)
  have hgoal : (repoBreakdown pulls).Pairwise
      (fun a b : RepoSummary => decide (a.name ≤ b.name) = true) := hs
  exact hgoal.imp fun hab => by
    rw [decide_eq_true_eq] at hab
    exact hab

-- ### C10

/-- Accumulating a pull into a repository summary increments its pull
counter by one. -/
theorem iadd_pulls_count (s : RepoSummary) (p : PullRequest) :
    (s.iadd p).pulls = s.pulls + 1 := by
  by_cases h : p.mergeableVal <;> simp [RepoSummary.iadd, h]

/-- Accumulating a pull into a repository summary increments its mergeable
counter exactly when the pull is mergeable. -/
theorem iadd_mergeable_count (s : RepoSummary) (p : PullRequest) :
    (s.iadd p).mergeable
      = s.mergeable + (if p.mergeableVal then 1 else 0) := by
  by_cases h : p.mergeableVal <;> simp [RepoSummary.iadd, h]

/-- One breakdown-accumulation step raises the total of the per-repository
pull counters by one. -/
theorem updateRepoSummaries_pulls_sum :
    ∀ (acc : List RepoSummary) (p : PullRequest),
      ((updateRepoSummaries acc p).map (fun s => s.pulls)).sum
        = ((acc.map (fun s => s.pulls)).sum) + 1 := by
  intro acc p
  induction acc with
  | nil => simp [updateRepoSummaries, iadd_pulls_count, RepoSummary.new]
  | cons s rest ih =>
    by_cases h : s.name = p.repo.full_name
    · simp only [updateRepoSummaries, if_pos h, List.map_cons, List.sum_cons,
        iadd_pulls_count]
      omega
    · simp only [updateRepoSummaries, if_neg h, List.map_cons, List.sum_cons, ih]
      omega

/-- One breakdown-accumulation step raises the total of the per-repository
mergeable counters by one exactly when the pull is mergeable. -/
theorem updateRepoSummaries_mergeable_sum :
    ∀ (acc : List RepoSummary) (p : PullRequest),
      ((updateRepoSummaries acc p).map (fun s => s.mergeable)).sum
        = ((acc.map (fun s => s.mergeable)).sum)
            + (if p.mergeableVal then 1 else 0) := by
  intro acc p
  induction acc with
  | nil => simp [updateRepoSummaries, iadd_mergeable_count, RepoSummary.new]
  | cons s rest ih =>
    by_cases h : s.name = p.repo.full_name
    · simp only [updateRepoSummaries, if_pos h, List.map_cons, List.sum_cons,
        iadd_mergeable_count]
      omega
    · simp only [updateRepoSummaries, if_neg h, List.map_cons, List.sum_cons, ih]
      omega

/-- Folding the breakdown accumulation over a pull list adds the list
length to the pull-counter total and the mergeable count to the
mergeable-counter total. -/
theorem foldl_updateRepoSummaries_sums :
    ∀ (pulls : List PullRequest) (acc : List RepoSummary),
      ((pulls.foldl updateRepoSummaries acc).map (fun s => s.pulls)).sum
        = (acc.map (fun s => s.pulls)).sum + pulls.length ∧
      ((pulls.foldl updateRepoSummaries acc).map (fun s => s.mergeable)).sum
        = (acc.map (fun s => s.mergeable)).sum
            + pulls.countP (fun p => p.mergeableVal) := by
  intro pulls
  induction pulls with
  | nil => intro acc; simp
  | cons p ps ih =>
    intro acc
    obtain ⟨ih1, ih2⟩ := ih (updateRepoSummaries acc p)
    constructor
    · rw [List.foldl_cons, ih1, updateRepoSummaries_pulls_sum,
        List.length_cons]
      omega
    · rw [List.foldl_cons, ih2, updateRepoSummaries_mergeable_sum,
        List.countP_cons]
      by_cases h : p.mergeableVal
      · simp only [if_pos h, h, if_true]
        omega
      · simp only [if_neg h, h, if_false]
        omega

/-- C10: the two header counts of the report — the total number of open
pull requests (`len(pulls)`) and the number of mergeable ones (the
`mergeable` property count), exactly the numbers printed in the
`Open PRs:` line of `reportEmission` — equal the sums of the `pulls` and
`mergeable` counters over the repository-breakdown rows. -/
theorem header_counts_equal_breakdown_sums (pulls : List PullRequest) :
    ((repoBreakdown pulls).map (fun s => s.pulls)).sum = pulls.length ∧
    ((repoBreakdown pulls).map (fun s => s.mergeable)).sum
      = pulls.countP (fun p => p.mergeableVal) := by
  have hperm : (repoBreakdown pulls).Perm (repoSummaries pulls) :=
    List.mergeSort_perm (repoSummaries pulls) _
  have h1 : ((repoBreakdown pulls).map (fun s => s.pulls)).sum
      = ((repoSummaries pulls).map (fun s => s.pulls)).sum :=
    (hperm.map (fun s => s.pulls)).sum_eq
  have h2 : ((repoBreakdown pulls).map (fun s => s.mergeable)).sum
      = ((repoSummaries pulls).map (fun s => s.mergeable)).sum :=
    (hperm.map (fun s => s.mergeable)).sum_eq
  obtain ⟨hs1, hs2⟩ := foldl_updateRepoSummaries_sums pulls []
  constructor
  · rw [h1]
    simpa using hs1
  · rw [h2]
    simpa using hs2
